import Mathlib

/-!
Verification development for the go-perun off-chain payment-channel engine.

This file shallowly embeds the parts of the repository that the checked
claims are about:

* the channel data model (balances, sub-allocations, states) following
  `channel.Allocation` / `channel.SubAlloc` / `channel.State`;
* the virtual-channel funding and settlement updates
  (`client/virtual_channel.go`, the settlement file with
  `withdrawVirtualChannel`);
* the intermediary's proposal handlers and matching predicates;
* the watcher loop (`client/adjudicate.go`, `Watch` / `Register`);
* the proposer-side update protocol (`client/update.go`);
* the adjudicator backend event queue (`processNext`) and the secondary
  conclude wait (`backend/ethereum/channel/conclude.go`);
* the simple wire address (`wire/net/simple/address.go`).

Machine integers are modelled as `Nat` / `Int`; byte strings as `List Nat`;
fallible Go code returns `Option` / `Except`.  Definitions carry the names
of the Go functions they embed where Lean permits.
-/

/-! ## Channel data model

The core `channel` package is not part of the extracted sources; its
operations are modelled from the spec (section 3: the `Allocation` holds a
balance matrix `Balances[asset][participant]` and a list of
`SubAlloc \x7bsub_channel_id, per-participant-sums, index_map\x7d`). -/

/-- A balance is a `big.Int`; modelled as `Int`. -/
abbrev Bal := Int

/-- Balance matrix, indexed `[asset][participant]`, following `channel.Balances`. -/
abbrev Balances := List (List Bal)

/-- Modelled from the spec: `SubAlloc{sub_channel_id, per-participant-sums, index_map}`
from the data model of section 3 (the `channel` package is not among the
extracted sources). -/
structure SubAlloc where
  id : Nat
  bals : List Bal
  indexMap : List Nat
deriving DecidableEq

/-- Modelled from the spec: the `Allocation` of section 3 — an ordered balance
matrix plus the list of sub-allocations (`Locked`). -/
structure Allocation where
  balances : Balances
  locked : List SubAlloc
deriving DecidableEq

/-- Modelled from the spec: `State = {channel_id, version, allocation, is_final}`
(section 3); `app_data` is irrelevant to the claims and elided into `appData`. -/
structure ChState where
  id : Nat
  version : Nat
  alloc : Allocation
  appData : Nat
  isFinal : Bool
deriving DecidableEq

/-- Modelled from the spec: `Balances.Add` adds two balance matrices element-wise. -/
def balancesAdd (a b : Balances) : Balances :=
  List.zipWith (fun r s => List.zipWith (· + ·) r s) a b

/-- Modelled from the spec: `Balances.Sub` subtracts two balance matrices element-wise. -/
def balancesSub (a b : Balances) : Balances :=
  List.zipWith (fun r s => List.zipWith (· - ·) r s) a b

/-- Modelled from the spec: `Balances.Sum` returns, per asset, the sum over all
participants. -/
def balancesSum (b : Balances) : List Bal :=
  b.map (fun row => row.sum)

/-- Modelled from the spec: `Allocation.Sum` returns, per asset, the sum of the
participant balances and all sub-allocation sums. -/
def allocationSum (a : Allocation) : List Bal :=
  a.locked.foldr (fun sa acc => List.zipWith (· + ·) sa.bals acc) (balancesSum a.balances)

/-- Modelled from the spec: `State.NumParts` is the number of participants, the
row length of the balance matrix. -/
def numParts (s : ChState) : Nat :=
  (s.alloc.balances.headD []).length

/-- Modelled from the spec: `State.SubAlloc(id)` looks up the sub-allocation with
the given channel id. -/
def lookupSubAlloc (id : Nat) (locked : List SubAlloc) : Option SubAlloc :=
  locked.find? (fun sa => sa.id == id)

/-- Modelled from the spec: `Allocation.RemoveSubAlloc` removes the (first)
sub-allocation carrying the given channel id. -/
def removeSubAllocById (id : Nat) : List SubAlloc → List SubAlloc
  | [] => []
  | sa :: rest => if sa.id = id then rest else sa :: removeSubAllocById id rest

/-- Per-asset, per-participant scatter used by `transformBalances`: start from a
zero row of length `n` and write `row[p]` at position `indexMap[p]`. -/
def scatterRow (n : Nat) (indexMap : List Nat) (row : List Bal) : List Bal :=
  (indexMap.zip row).foldl (fun acc pr => acc.set pr.1 pr.2) (List.replicate n 0)

/-- Embeds `transformBalances` from `client/virtual_channel_util.go`: translate a
balance matrix through an index map into rows of length `nParts`. -/
def transformBalances (b : Balances) (nParts : Nat) (indexMap : List Nat) : Balances :=
  b.map (scatterRow nParts indexMap)

/-- Embeds `Channel.translateBalances` from `client/virtual_channel_util.go`:
transform the channel state's balances with the channel's own participant count. -/
def translateBalances (s : ChState) (indexMap : List Nat) : Balances :=
  transformBalances s.alloc.balances (numParts s) indexMap

/-! ## Conserved quantity

For claim C2 we track, per asset index, the participant-balance sum plus the
sum of all sub-allocation sums.  Out-of-range asset indices contribute 0. -/

/-- Sum of the participant balances of asset `a` of a state. -/
def rowSumAt (s : ChState) (a : Nat) : Bal :=
  (s.alloc.balances.getD a []).sum

/-- Sum of the sub-allocation sums of asset `a` of a state. -/
def lockedSumAt (s : ChState) (a : Nat) : Bal :=
  (s.alloc.locked.map (fun sa => sa.bals.getD a 0)).sum

/-- The spec's conserved quantity at asset `a`:
participant balances plus sub-allocation sums. -/
def conservedAt (s : ChState) (a : Nat) : Bal :=
  rowSumAt s a + lockedSumAt s a

/-! ## Virtual-channel funding and settlement updates

Embedded from `proposeVirtualChannelFunding` (client/virtual_channel.go) and
`withdrawVirtualChannel` (the settlement file). -/

/-- Embeds the state construction of `Channel.proposeVirtualChannelFunding`:
clone the parent state, bump the version, subtract the virtual channel's
translated initial balances, and append a sub-allocation carrying their sums. -/
def proposeVirtualChannelFundingState (parent virtual : ChState) (indexMap : List Nat) : ChState :=
  let balances := translateBalances virtual indexMap
  { parent with
    version := parent.version + 1
    alloc := { balances := balancesSub parent.alloc.balances balances
               locked := parent.alloc.locked ++ [⟨virtual.id, balancesSum balances, indexMap⟩] } }

/-- Embeds the state construction of `Channel.withdrawVirtualChannel`: look up
the virtual channel's sub-allocation, assert its sums equal the virtual
channel's accumulated outcome (a violated assertion aborts, modelled as
`none`), add the translated final balances back and remove the sub-allocation. -/
def withdrawVirtualChannelState (parent virtual : ChState) : Option ChState :=
  (lookupSubAlloc virtual.id parent.alloc.locked).bind fun virtualAlloc =>
    if virtualAlloc.bals = allocationSum virtual.alloc then
      let virtualBalsRemapped := translateBalances virtual virtualAlloc.indexMap
      some { parent with
        version := parent.version + 1
        alloc := { balances := balancesAdd parent.alloc.balances virtualBalsRemapped
                   locked := removeSubAllocById virtual.id parent.alloc.locked } }
    else none

/-! ## Watcher loop and Register (client/adjudicate.go) -/

/-- Action of `Channel.Watch` on a `RegisteredEvent`. -/
inductive WatchAction where
  | fatalPanic
  | doRegister
  | continueNormal
deriving DecidableEq

/-- Embeds the `RegisteredEvent` branch of `Channel.Watch`: an event version
above the local version hits `log.Panicf`; a version strictly below triggers
`Register`; an equal version falls through to normal processing. -/
def watchRegisteredAction (localVersion eventVersion : Nat) : WatchAction :=
  if eventVersion > localVersion then .fatalPanic
  else if eventVersion < localVersion then .doRegister
  else .continueNormal

/-- A signed transaction as gathered by `gatherSubChannelStates`
(`machine.CurrentTX()`, the freshest fully signed state). -/
structure SignedState where
  state : ChState
  sigs : List Nat
deriving DecidableEq

/-- A node of the channel tree: the channel's current transaction and its
sub-channels (the children reachable through `state.Locked`). -/
inductive ChanNode where
  | mk (tx : SignedState) (subs : List ChanNode)

/-- Current transaction of a channel-tree node. -/
def ChanNode.tx : ChanNode → SignedState
  | .mk tx _ => tx

/-- Sub-channel list of a channel-tree node. -/
def ChanNode.subs : ChanNode → List ChanNode
  | .mk _ subs => subs

mutual

/-- Embeds `gatherSubChannelStates` / `applyToSubChannelsRecursive`: collect the
signed states of all proper descendants, each followed by its own descendants. -/
def gatherSubChannelStates : ChanNode → List SignedState
  | .mk _ subs => gatherSubList subs

/-- Gather over a list of sub-channels. -/
def gatherSubList : List ChanNode → List SignedState
  | [] => []
  | s :: rest => s.tx :: (gatherSubChannelStates s ++ gatherSubList rest)

end

/-- The adjudicator call issued by `Register`: the root channel's request
together with all gathered sub-channel states. -/
structure RegisterCall where
  tx : SignedState
  subStates : List SignedState
deriving DecidableEq

/-- Embeds `Channel.Register`: while the channel has a parent, ascend; at the
root, register the whole tree.  `ancestors` is the parent chain, immediate
parent first. -/
def Register : List ChanNode → ChanNode → RegisterCall
  | [], n => ⟨n.tx, gatherSubChannelStates n⟩
  | p :: rest, _ => Register rest p

/-- Root of a channel given its parent chain (immediate parent first). -/
def rootChan : List ChanNode → ChanNode → ChanNode
  | [], n => n
  | p :: rest, _ => rootChan rest p

/-! ## Adjudicator backend event queue (processNext) -/

/-- An adjudicator event as queued by `AdjudicatorBackendSub`: version and the
block timeout carried by the on-chain update. -/
structure AdjEvent where
  version : Nat
  timeout : Nat
deriving DecidableEq

/-- Embeds `AdjudicatorBackendSub.processNext`: the single-slot queue (`r.next`,
a capacity-one channel) is drained; a newer version, or the same version with
a strictly later timeout, replaces the queued event, otherwise the old event
is kept and the new one dropped.  An empty slot takes the new event. -/
def processNext (slot : Option AdjEvent) (next : AdjEvent) : Option AdjEvent :=
  match slot with
  | none => some next
  | some current =>
    if current.version < next.version ∨
        (current.version = next.version ∧ current.timeout < next.timeout) then
      some next
    else
      some current

/-! ## Intermediary proposal handlers (client/virtual_channel.go) -/

/-- A call placed on an `UpdateResponder` by the intermediary's handlers. -/
inductive RespCall where
  | reject
  | accept
deriving DecidableEq

/-- Embeds the control flow of `Client.handleVirtualChannelFundingProposal`:
`rejectProposal` on a validation error, `rejectProposal` again on a watcher
error, and `acceptProposal` — with no early returns, so every branch reaches
the final accept.  `validateOk` is the outcome of
`validateVirtualChannelFundingProposal`; `awaitOk` that of
`fundingWatcher.Await`. -/
def handleVirtualChannelFundingProposalCalls (validateOk awaitOk : Bool) : List RespCall :=
  (if validateOk then [] else [.reject]) ++
  (if awaitOk then [] else [.reject]) ++
  [.accept]

/-- Embeds the control flow of `Client.handleVirtualChannelSettlementProposal`,
which is textually identical to the funding handler but validates with
`validateVirtualChannelSettlementProposal` and awaits the settlement watcher. -/
def handleVirtualChannelSettlementProposalCalls (validateOk awaitOk : Bool) : List RespCall :=
  (if validateOk then [] else [.reject]) ++
  (if awaitOk then [] else [.reject]) ++
  [.accept]

/-! ## Funding proposal matching (client/virtual_channel.go) -/

/-- Modelled from the spec: the immutable channel parameters
`{participants, challenge-duration, app-identifier, nonce, virtual-flag}`;
only the fields used by the matching and validation code are kept. -/
structure ChParams where
  id : Nat
  parts : List Nat
  virtualChannel : Bool
deriving DecidableEq

/-- A `virtualChannelFundingProposal` message as seen by `matchFundingProposal`:
the id of the parent channel it arrived on, the virtual channel's parameters,
initial state, initial signatures, and the index map. -/
structure VirtualChannelFundingProposal where
  parentID : Nat
  chParams : ChParams
  initialState : ChState
  initialStateSigs : List Nat
  indexMap : List Nat
deriving DecidableEq

/-- Embeds `Client.matchFundingProposal` for a pair of funding proposals.
`reg id` returns the client's own participant index in channel `id`
(`c.Channel(id)` followed by `ch.Idx()`; `none` when the channel is unknown).
`persistOk` abstracts the success of `persistVirtualChannel`.  The result is
`none` when the Go code would fault indexing `indices[j]` out of range, and
`some ok` otherwise, `ok` being the matched verdict. -/
def matchFundingProposal (reg : Nat → Option Nat) (persistOk : Bool)
    (p0 p1 : VirtualChannelFundingProposal) : Option Bool :=
  -- Check initial state (each proposal against proposal 0).
  if p1.initialState ≠ p0.initialState then some false
  else
    -- gatherChannels: resolve both parent channels.
    match reg p0.parentID, reg p1.parentID with
    | some i0, some i1 =>
      -- Check index map coverage; `indices` has length `len(prop0.IndexMap)`.
      let n := p0.indexMap.length
      if p1.indexMap.length > n then none
      else if (List.range n).all
          (fun j => p0.indexMap.get? j == some i0 || p1.indexMap.get? j == some i1) then
        if persistOk then some true else some false
      else some false
    | _, _ => some false

/-! ## Proposer-side update protocol (client/update.go) -/

/-- Modelled from the spec: the channel machine's staged-update bookkeeping of
section 4.A — a current state and at most one staged update. -/
structure Machine where
  current : ChState
  staging : Option ChState
deriving DecidableEq

/-- Modelled from the spec: `machine.Update` stages a new state; it fails with
`VersionMismatch` unless the version is exactly one above the current one, and
only one update can be staged at a time. -/
def machineUpdate (m : Machine) (next : ChState) : Except String Machine :=
  if next.version ≠ m.current.version + 1 then .error "version mismatch"
  else if m.staging ≠ none then .error "already staging"
  else .ok { m with staging := some next }

/-- Modelled from the spec: `machine.DiscardUpdate` clears the staged update. -/
def machineDiscardUpdate (m : Machine) : Machine :=
  { m with staging := none }

/-- Outcome of `resRecv.Next(ctx)` in `Channel.update`. -/
inductive RecvResult where
  | acc (sig : Nat)
  | rej (reason : String)
  | ctxError
  | recvError
deriving DecidableEq

/-- Errors surfaced by the proposer-side `Channel.update`. -/
inductive UpdateError where
  | machineError (msg : String)
  | signError
  | sendError
  | requestTimedOut
  | recvFailed
  | peerRejected (reason : String)
deriving DecidableEq

/-- Embeds `Channel.update` (the proposer path, after validation): stage the
update in the machine, sign, send `msgChannelUpdate`, and wait for the
response; any error after staging triggers the deferred `DiscardUpdate`.  A
context error on the response receiver becomes `RequestTimedOutError`; an
accept promotes the staged state to current.  `sigOk` and `sendOk` abstract
the signing and transport steps. -/
def updateProposer (m : Machine) (next : ChState) (sigOk sendOk : Bool)
    (resp : RecvResult) : Machine × Except UpdateError Unit :=
  match machineUpdate m next with
  | .error e => (m, .error (.machineError e))
  | .ok m1 =>
    if ¬sigOk then (machineDiscardUpdate m1, .error .signError)
    else if ¬sendOk then (machineDiscardUpdate m1, .error .sendError)
    else
      match resp with
      | .ctxError => (machineDiscardUpdate m1, .error .requestTimedOut)
      | .recvError => (machineDiscardUpdate m1, .error .recvFailed)
      | .rej reason => (machineDiscardUpdate m1, .error (.peerRejected reason))
      | .acc _ => ({ current := next, staging := none }, .ok ())

/-! ## Secondary conclude wait (backend/ethereum/channel/conclude.go) -/

/-- The adjudicator contract's channel phase (`phaseDispute`, `phaseForceExec`,
`phaseConcluded`). -/
inductive ChPhase where
  | dispute
  | forceExec
  | concluded
deriving DecidableEq

/-- One arm of the `select` in `waitConcludedForNBlocks`: a new block header, an
adjudicator event with its phase, or context cancellation. -/
inductive Happening where
  | header
  | adjEvent (phase : ChPhase)
  | ctxDone
deriving DecidableEq

/-- Result of a bounded wait for a Concluded event. -/
inductive WaitOutcome where
  | found
  | exhausted
  | cancelled
deriving DecidableEq

/-- The constant `secondaryWaitBlocks` of `conclude.go`. -/
def secondaryWaitBlocks : Nat := 2

/-- Embeds `waitConcludedForNBlocks`: up to `numBlocks` select iterations, each
consuming one happening; a Concluded-phase event returns `found`, a header or
non-concluded event costs one iteration, cancellation aborts, and running out
of iterations yields `exhausted`.  `none` models blocking forever on an
exhausted happening stream. -/
def waitConcludedForNBlocks : Nat → List Happening → Option WaitOutcome
  | 0, _ => some .exhausted
  | _ + 1, [] => none
  | n + 1, .header :: rest => waitConcludedForNBlocks n rest
  | n + 1, .adjEvent p :: rest =>
    if p = .concluded then some .found else waitConcludedForNBlocks n rest
  | _ + 1, .ctxDone :: _ => some .cancelled

/-- An `AdjudicatorReq` restricted to the fields read by the conclude path. -/
structure AdjudicatorReq where
  isFinal : Bool
  secondary : Bool
deriving DecidableEq

/-- Embeds `Adjudicator.waitConcludedSecondary`: only for a final transaction of
a secondary request does the backend wait, for
`secondaryWaitBlocks + txFinalityDepth` blocks; otherwise it immediately
reports no conclude observed. -/
def waitConcludedSecondary (txFinalityDepth : Nat) (req : AdjudicatorReq)
    (events : List Happening) : Option WaitOutcome :=
  if req.isFinal ∧ req.secondary then
    waitConcludedForNBlocks (secondaryWaitBlocks + txFinalityDepth) events
  else some .exhausted

/-- Errors of the conclude path. -/
inductive ConcludeError where
  | cancelled
  | txFailed
  | subClosed
deriving DecidableEq

/-- Embeds `Adjudicator.ensureConcludedBackend`: succeed immediately if a past
Concluded event exists; otherwise run the secondary wait, succeeding without a
transaction when it finds the counterparty's conclude; otherwise submit the
conclude transaction and wait for the event (abstracted as `postTxResult`).
The boolean records whether a transaction was submitted. -/
def ensureConcludedBackend (pastConcluded : Bool) (txFinalityDepth : Nat)
    (req : AdjudicatorReq) (events : List Happening)
    (postTxResult : Except ConcludeError Unit) :
    Option (Except ConcludeError Unit × Bool) :=
  if pastConcluded then some (.ok (), false)
  else
    match waitConcludedSecondary txFinalityDepth req events with
    | none => none
    | some .cancelled => some (.error .cancelled, false)
    | some .found => some (.ok (), false)
    | some .exhausted => some (postTxResult, true)

/-! ## Off-chain settlement dispatch (client/adjudicate.go, SettleWithSubchannels) -/

/-- The three channel flavours distinguished by `SettleWithSubchannels`. -/
inductive ChanType where
  | ledger
  | sub
  | virtualCh
deriving DecidableEq

/-- Observable outcome of `SettleWithSubchannels`: the returned error (if any),
whether a settlement update was proposed to the parent, whether the on-chain
`Withdraw` was called, and which phases were set. -/
structure SettleOutcome where
  errMsg : Option String
  sentParentUpdate : Bool
  calledWithdraw : Bool
  setWithdrawing : Bool
  setWithdrawn : Bool
deriving DecidableEq

/-- Embeds `Channel.SettleWithSubchannels`: the machine is set to `Withdrawing`,
then ledger channels withdraw on chain while sub- and virtual channels first
check `hasLockedFunds` (modelled from the spec as a non-empty `Locked` list)
and settle off-chain into the parent; only successful branches reach
`SetWithdrawn`.  `parentOk` abstracts the parent-channel settlement update. -/
def settleWithSubchannels (ctype : ChanType) (locked : List SubAlloc)
    (parentOk : Bool) : SettleOutcome :=
  match ctype with
  | .ledger =>
    { errMsg := none, sentParentUpdate := false, calledWithdraw := true
      setWithdrawing := true, setWithdrawn := true }
  | .sub =>
    if locked ≠ [] then
      { errMsg := some "cannot settle off-chain with locked funds"
        sentParentUpdate := false, calledWithdraw := false
        setWithdrawing := true, setWithdrawn := false }
    else if parentOk then
      { errMsg := none, sentParentUpdate := true, calledWithdraw := false
        setWithdrawing := true, setWithdrawn := true }
    else
      { errMsg := some "withdrawing into parent channel"
        sentParentUpdate := true, calledWithdraw := false
        setWithdrawing := true, setWithdrawn := false }
  | .virtualCh =>
    if locked ≠ [] then
      { errMsg := some "cannot settle off-chain with locked funds"
        sentParentUpdate := false, calledWithdraw := false
        setWithdrawing := true, setWithdrawn := false }
    else if parentOk then
      { errMsg := none, sentParentUpdate := true, calledWithdraw := false
        setWithdrawing := true, setWithdrawn := true }
    else
      { errMsg := some "withdrawing into parent channel"
        sentParentUpdate := true, calledWithdraw := false
        setWithdrawing := true, setWithdrawn := false }

/-! ## Simple wire address (wire/net/simple/address.go)

Bytes are modelled as `List Nat`; Go's `uint16` and `int32` conversions keep
their truncating semantics. -/

/-- Little-endian base-256 digits of `n`, fuel-based (`fuel ≥ n` suffices). -/
def natBytesLE : Nat → Nat → List Nat
  | 0, _ => []
  | fuel + 1, n => if n = 0 then [] else n % 256 :: natBytesLE fuel (n / 256)

/-- Embeds `big.Int.Bytes`: canonical big-endian byte representation of a
non-negative integer (empty for 0). -/
def natToBytesBE (n : Nat) : List Nat :=
  (natBytesLE n n).reverse

/-- Value of a little-endian base-256 digit list. -/
def bytesToNatLE : List Nat → Nat
  | [] => 0
  | d :: ds => d + 256 * bytesToNatLE ds

/-- Embeds `binary.Write(buf, BigEndian, uint16(v))`: the value is truncated to
16 bits and written as two big-endian bytes. -/
def u16BE (v : Nat) : List Nat :=
  [v % 65536 / 256, v % 256]

/-- Embeds `binary.Write(buf, BigEndian, int32(e))`: the (64-bit) exponent is
truncated to 32 bits and written as four big-endian bytes of its two's
complement. -/
def int32BE (e : Int) : List Nat :=
  let v := (e % 4294967296).toNat
  [v / 16777216 % 256, v / 65536 % 256, v / 256 % 256, v % 256]

/-- An `rsa.PublicKey`: modulus `N` (non-negative) and exponent `E` (a Go `int`). -/
structure RSAPublicKey where
  n : Nat
  e : Int
deriving DecidableEq

/-- Embeds `encodePublicKey`: `u16` modulus length, modulus bytes, `int32`
exponent. -/
def encodePublicKey (k : RSAPublicKey) : List Nat :=
  let modulusBytes := natToBytesBE k.n
  u16BE modulusBytes.length ++ modulusBytes ++ int32BE k.e

/-- Embeds the wire `Address` of the simple backend: a name and an optional RSA
public key. -/
structure Address where
  name : List Nat
  publicKey : Option RSAPublicKey
deriving DecidableEq

/-- Embeds `Address.MarshalBinary`: `u16` name length, name bytes, and the
public-key encoding when a key is present. -/
def Address.MarshalBinary (a : Address) : List Nat :=
  u16BE a.name.length ++ a.name ++
    (match a.publicKey with
     | none => []
     | some k => encodePublicKey k)

/-- Embeds `bytes.Compare`: lexicographic three-way comparison of byte slices. -/
def bytesCompare : List Nat → List Nat → Int
  | [], [] => 0
  | [], _ :: _ => -1
  | _ :: _, [] => 1
  | a :: as, b :: bs => if a < b then -1 else if b < a then 1 else bytesCompare as bs

/-- Embeds `Address.Equal`: structural equality — equal names, and equal public
keys via `rsa.PublicKey.Equal` (same modulus and exponent).  The Go call with
a present key on one side and `nil` on the other dereferences a nil big.Int
and aborts; that case is modelled as `false` (it certainly does not return
equality). -/
def Address.Equal (a b : Address) : Bool :=
  match a.publicKey with
  | none => a.name == b.name && b.publicKey == none
  | some k =>
    a.name == b.name &&
      (match b.publicKey with
       | none => false
       | some k2 => k.n == k2.n && k.e == k2.e)

/-- Embeds `Address.Cmp`: compare the names; when they tie, compare the full
binary representations. -/
def Address.Cmp (a b : Address) : Int :=
  let c := bytesCompare a.name b.name
  if c ≠ 0 then c
  else bytesCompare a.MarshalBinary b.MarshalBinary

/-! ## Concrete instances used by the witnesses -/

/-- A two-party parent channel state with balances `[10, 10]` and no
sub-allocations (spec scenario 3). -/
def parentEx : ChState :=
  { id := 1, version := 2, alloc := { balances := [[10, 10]], locked := [] }
    appData := 0, isFinal := false }

/-- A virtual channel's initial state with balances `[5, 5]`. -/
def virtualEx : ChState :=
  { id := 9, version := 0, alloc := { balances := [[5, 5]], locked := [] }
    appData := 0, isFinal := false }

/-- A parent state holding the virtual channel's sub-allocation `[10]`. -/
def parentEx2 : ChState :=
  { id := 1, version := 3, alloc := { balances := [[5, 5]], locked := [⟨9, [10], [0, 1]⟩] }
    appData := 0, isFinal := false }

/-- The virtual channel's final state `[2, 8]` (spec scenario 3). -/
def virtualEx2 : ChState :=
  { id := 9, version := 7, alloc := { balances := [[2, 8]], locked := [] }
    appData := 0, isFinal := true }

/-- The parent state after settling the virtual channel: balances `[7, 13]`,
sub-allocation removed. -/
def settledEx : ChState :=
  { id := 1, version := 4, alloc := { balances := [[7, 13]], locked := [] }
    appData := 0, isFinal := false }

/-- The intermediary's channel registry for the matching witness: it is
participant 1 in parent channels 1 and 2. -/
def regEx : Nat → Option Nat :=
  fun id => if id = 1 then some 1 else if id = 2 then some 1 else none

/-- Funding proposal arriving over parent channel 1 with index map `[0, 1]`. -/
def vfpEx0 : VirtualChannelFundingProposal :=
  { parentID := 1, chParams := { id := 9, parts := [100, 200], virtualChannel := true }
    initialState := virtualEx, initialStateSigs := [], indexMap := [0, 1] }

/-- Matching funding proposal arriving over parent channel 2 with index map
`[1, 0]`. -/
def vfpEx1 : VirtualChannelFundingProposal :=
  { parentID := 2, chParams := { id := 9, parts := [100, 200], virtualChannel := true }
    initialState := virtualEx, initialStateSigs := [], indexMap := [1, 0] }

/-- A machine sitting at `parentEx` with nothing staged. -/
def machineEx : Machine :=
  { current := parentEx, staging := none }

/-- A successor state of `parentEx` (version 3, balances `[7, 13]`). -/
def nextStateEx : ChState :=
  { id := 1, version := 3, alloc := { balances := [[7, 13]], locked := [] }
    appData := 0, isFinal := false }

/-- An address with name `[]` and key `(N = 1, E = 3)`. -/
def addrEx0 : Address :=
  { name := [], publicKey := some { n := 1, e := 3 } }

/-- An address equal to `addrEx0` except that the exponent is `3 + 2^32`, which
the `int32` conversion of `encodePublicKey` truncates back to 3. -/
def addrEx1 : Address :=
  { name := [], publicKey := some { n := 1, e := 3 + 4294967296 } }

/-! ## Theorems -/

/-- C1: the claim states that a failed validation leads to `Reject` with
`Accept` never invoked on the single-use responder.  The handlers lack early
returns: after `rejectProposal` they fall through to the watcher await and to
`acceptProposal`, so the used responder receives a second call.  This theorem
evaluates both handlers at a failing validation. -/
theorem handleVirtualChannelProposal_accepts_after_reject :
    handleVirtualChannelFundingProposalCalls false true = [.reject, .accept] ∧
    RespCall.accept ∈ handleVirtualChannelFundingProposalCalls false true ∧
    handleVirtualChannelSettlementProposalCalls false true = [.reject, .accept] ∧
    RespCall.accept ∈ handleVirtualChannelSettlementProposalCalls false true := by
  decide

/-- C3: whenever the watcher sees a `RegisteredEvent` with a version strictly
below the local version it invokes `Register`, and `Register` from any channel
walks to the root of the channel tree and registers the root's freshest signed
transaction together with the gathered states of the full tree. -/
theorem watch_registers_stale_event :
    (∀ localVersion eventVersion, eventVersion < localVersion →
      watchRegisteredAction localVersion eventVersion = .doRegister) ∧
    (∀ ancestors c, Register ancestors c =
      ⟨(rootChan ancestors c).tx, gatherSubChannelStates (rootChan ancestors c)⟩) := by
  constructor
  · intro l v h
    unfold watchRegisteredAction
    rw [if_neg (by omega), if_pos h]
  · intro ancestors
    induction ancestors with
    | nil => intro c; rfl
    | cons p rest ih => intro c; simpa [Register, rootChan] using ih p

/-- C3 witness: a registered version 3 below local version 5 triggers
`Register`. -/
theorem watch_registers_stale_event_witness :
    watchRegisteredAction 5 3 = .doRegister :=
  watch_registers_stale_event.1 5 3 (by decide)

/-- C5: the backend subscription keeps at most one queued event (the slot is
the single-capacity `next` channel) and `processNext` replaces the queued
event exactly when the new one has a strictly greater version, or the same
version with a strictly later timeout; otherwise the queued event is kept. -/
theorem processNext_latest_event_slot (current next : AdjEvent) :
    ((current.version < next.version ∨
        (current.version = next.version ∧ current.timeout < next.timeout)) →
      processNext (some current) next = some next) ∧
    (¬(current.version < next.version ∨
        (current.version = next.version ∧ current.timeout < next.timeout)) →
      processNext (some current) next = some current) ∧
    processNext none next = some next ∧
    (∀ slot, (processNext slot next).isSome = true) := by
  refine ⟨fun h => ?_, fun h => ?_, rfl, fun slot => ?_⟩
  · simp [processNext, h]
  · simp [processNext, h]
  · cases slot with
    | none => rfl
    | some current => by_cases h : current.version < next.version ∨
        (current.version = next.version ∧ current.timeout < next.timeout) <;>
      simp [processNext, h]

/-- C5 witness: a version-2 event replaces a queued version-1 event. -/
theorem processNext_latest_event_slot_witness :
    processNext (some ⟨1, 5⟩) ⟨2, 0⟩ = some ⟨2, 0⟩ :=
  (processNext_latest_event_slot ⟨1, 5⟩ ⟨2, 0⟩).1 (Or.inl (by decide))

/-- C6: when the proposer-side `update` stages and sends an update but the
response receiver reports a context error, the call returns
`RequestTimedOutError` and the deferred discard clears the staged state,
leaving the machine exactly as before. -/
theorem update_timeout_discards_staged (m : Machine) (next : ChState)
    (hstage : m.staging = none) (hver : next.version = m.current.version + 1) :
    updateProposer m next true true .ctxError = (m, .error .requestTimedOut) := by
  cases m with
  | mk current staging =>
    cases hstage
    simp [updateProposer, machineUpdate, machineDiscardUpdate, hver]

/-- C6 witness: a timed-out update of `machineEx` by `nextStateEx` surfaces
`RequestTimedOutError` and leaves the machine unchanged. -/
theorem update_timeout_discards_staged_witness :
    updateProposer machineEx nextStateEx true true .ctxError =
      (machineEx, .error .requestTimedOut) :=
  update_timeout_discards_staged machineEx nextStateEx (by decide) (by decide)

/-- C7: for a secondary request on a final transaction, the conclude path waits
for exactly `secondaryWaitBlocks + txFinalityDepth` blocks, and when the
counterparty's Concluded event arrives within that window the backend
succeeds without submitting its own conclude transaction. -/
theorem conclude_secondary_waits_without_tx (txFinalityDepth : Nat)
    (req : AdjudicatorReq) (events : List Happening)
    (postTx : Except ConcludeError Unit)
    (hfin : req.isFinal = true) (hsec : req.secondary = true) :
    waitConcludedSecondary txFinalityDepth req events =
      waitConcludedForNBlocks (secondaryWaitBlocks + txFinalityDepth) events ∧
    (waitConcludedForNBlocks (secondaryWaitBlocks + txFinalityDepth) events =
        some .found →
      ensureConcludedBackend false txFinalityDepth req events postTx =
        some (.ok (), false)) := by
  constructor
  · simp [waitConcludedSecondary, hfin, hsec]
  · intro h
    simp [ensureConcludedBackend, waitConcludedSecondary, hfin, hsec, h]

/-- C7 witness: with finality depth 1 the secondary wait spans 3 blocks, and a
Concluded event arriving immediately concludes without a transaction. -/
theorem conclude_secondary_waits_without_tx_witness :
    ensureConcludedBackend false 1 ⟨true, true⟩ [.adjEvent .concluded] (.ok ()) =
      some (.ok (), false) :=
  (conclude_secondary_waits_without_tx 1 ⟨true, true⟩ [.adjEvent .concluded]
    (.ok ()) rfl rfl).2 (by decide)

/-- C8: a `RegisteredEvent` carrying a version strictly greater than the local
version hits the watcher's invariant check: the condition is logged fatally
(`log.Panicf`) instead of continuing with normal processing or a refutation. -/
theorem watch_fatal_on_greater_version (localVersion eventVersion : Nat)
    (h : localVersion < eventVersion) :
    watchRegisteredAction localVersion eventVersion = .fatalPanic ∧
    watchRegisteredAction localVersion eventVersion ≠ .continueNormal ∧
    watchRegisteredAction localVersion eventVersion ≠ .doRegister := by
  unfold watchRegisteredAction
  rw [if_pos h]
  exact ⟨rfl, by simp, by simp⟩

/-- C8 witness: local version 3, event version 5. -/
theorem watch_fatal_on_greater_version_witness :
    watchRegisteredAction 3 5 = .fatalPanic :=
  (watch_fatal_on_greater_version 3 5 (by decide)).1

/-- C9: settling a sub- or virtual channel whose state still holds locked
sub-allocations fails with the locked-funds error, sends no settlement update
to the parent, and never reaches `SetWithdrawn`. -/
theorem settle_locked_funds_error (ctype : ChanType) (locked : List SubAlloc)
    (parentOk : Bool) (hty : ctype = .sub ∨ ctype = .virtualCh)
    (hlocked : locked ≠ []) :
    (settleWithSubchannels ctype locked parentOk).errMsg =
      some "cannot settle off-chain with locked funds" ∧
    (settleWithSubchannels ctype locked parentOk).sentParentUpdate = false ∧
    (settleWithSubchannels ctype locked parentOk).setWithdrawn = false := by
  rcases hty with h | h <;> subst h <;> simp [settleWithSubchannels, hlocked]

/-- C9 witness: a virtual channel with one locked sub-allocation. -/
theorem settle_locked_funds_error_witness :
    (settleWithSubchannels .virtualCh [⟨3, [1], [0]⟩] true).errMsg =
      some "cannot settle off-chain with locked funds" :=
  (settle_locked_funds_error .virtualCh [⟨3, [1], [0]⟩] true (Or.inr rfl)
    (by decide)).1

/-! ### Arithmetic helper lemmas for the conservation claim -/

/-- Summing an element-wise addition of equally long rows adds the sums. -/
theorem zipWith_add_sum : ∀ (r s : List Bal), r.length = s.length →
    (List.zipWith (· + ·) r s).sum = r.sum + s.sum := by
  intro r
  induction r with
  | nil =>
    intro s h
    cases s with
    | nil => simp
    | cons b bs => simp at h
  | cons a as ih =>
    intro s h
    cases s with
    | nil => simp at h
    | cons b bs =>
      simp only [List.zipWith_cons_cons, List.sum_cons]
      rw [ih bs (by simpa using h)]
      ring

/-- Summing an element-wise subtraction of equally long rows subtracts the sums. -/
theorem zipWith_sub_sum : ∀ (r s : List Bal), r.length = s.length →
    (List.zipWith (· - ·) r s).sum = r.sum - s.sum := by
  intro r
  induction r with
  | nil =>
    intro s h
    cases s with
    | nil => simp
    | cons b bs => simp at h
  | cons a as ih =>
    intro s h
    cases s with
    | nil => simp at h
    | cons b bs =>
      simp only [List.zipWith_cons_cons, List.sum_cons]
      rw [ih bs (by simpa using h)]
      ring

/-- `getD` through a row-sum map is the sum of the `getD` row. -/
theorem getD_map_sum : ∀ (b : Balances) (a : Nat),
    (b.map (fun row => row.sum)).getD a 0 = (b.getD a []).sum := by
  intro b
  induction b with
  | nil => intro a; simp
  | cons r t ih =>
    intro a
    cases a with
    | zero => simp
    | succ a' => simpa using ih a'

/-- `getD` through a matrix `zipWith` distributes to the rows. -/
theorem getD_zipWith_rows (f : Bal → Bal → Bal) :
    ∀ (P T : Balances) (a : Nat), P.length = T.length →
    (List.zipWith (fun r s => List.zipWith f r s) P T).getD a [] =
      List.zipWith f (P.getD a []) (T.getD a []) := by
  intro P
  induction P with
  | nil =>
    intro T a h
    cases T with
    | nil => simp
    | cons s T' => simp at h
  | cons r P' ih =>
    intro T a h
    cases T with
    | nil => simp at h
    | cons s T' =>
      cases a with
      | zero => simp
      | succ a' =>
        simp only [List.zipWith_cons_cons, List.getD_cons_succ]
        exact ih T' a' (by simpa using h)

/-- Setting an in-range element adjusts the sum by the difference. -/
theorem set_sum : ∀ (l : List Bal) (i : Nat) (v : Bal), i < l.length →
    (l.set i v).sum = l.sum - l.getD i 0 + v := by
  intro l
  induction l with
  | nil => intro i v h; simp at h
  | cons x xs ih =>
    intro i v h
    cases i with
    | zero => simp; ring
    | succ i' =>
      simp only [List.set_cons_succ, List.sum_cons, List.getD_cons_succ]
      rw [ih i' v (by simpa using h)]
      ring

/-- Setting one position leaves the `getD` of any other position unchanged. -/
theorem getD_set_ne : ∀ (l : List Bal) (i j : Nat) (v : Bal), i ≠ j →
    (l.set i v).getD j 0 = l.getD j 0 := by
  intro l
  induction l with
  | nil => intro i j v _; simp
  | cons x xs ih =>
    intro i j v hij
    cases i with
    | zero =>
      cases j with
      | zero => exact absurd rfl hij
      | succ j' => simp
    | succ i' =>
      cases j with
      | zero => simp
      | succ j' =>
        simp only [List.set_cons_succ, List.getD_cons_succ]
        exact ih i' j' v (fun h => hij (by rw [h]))

/-- Folding writes at pairwise distinct, in-range, initially-zero positions adds
the written values to the sum. -/
theorem foldl_set_sum : ∀ (pairs : List (Nat × Bal)) (acc : List Bal),
    (pairs.map Prod.fst).Nodup →
    (∀ pr ∈ pairs, pr.1 < acc.length ∧ acc.getD pr.1 0 = 0) →
    (pairs.foldl (fun ac pr => ac.set pr.1 pr.2) acc).sum =
      acc.sum + (pairs.map Prod.snd).sum := by
  intro pairs
  induction pairs with
  | nil => intro acc _ _; simp
  | cons pr rest ih =>
    intro acc hnd hinv
    have hhead := hinv pr (List.mem_cons_self pr rest)
    have hnd2 : (pr.1 :: rest.map Prod.fst).Nodup := by simpa using hnd
    have hnd' := List.nodup_cons.mp hnd2
    have hinv' : ∀ q ∈ rest, q.1 < (acc.set pr.1 pr.2).length ∧
        (acc.set pr.1 pr.2).getD q.1 0 = 0 := by
      intro q hq
      refine ⟨by simpa [List.length_set] using (hinv q (List.mem_cons_of_mem pr hq)).1, ?_⟩
      rw [getD_set_ne]
      · exact (hinv q (List.mem_cons_of_mem pr hq)).2
      · intro h
        exact hnd'.1 (h ▸ List.mem_map_of_mem Prod.fst hq)
    simp only [List.foldl_cons, List.map_cons, List.sum_cons]
    rw [ih (acc.set pr.1 pr.2) hnd'.2 hinv', set_sum acc pr.1 pr.2 hhead.1, hhead.2]
    ring

/-- Folding writes preserves the row length. -/
theorem foldl_set_length : ∀ (pairs : List (Nat × Bal)) (acc : List Bal),
    (pairs.foldl (fun ac pr => ac.set pr.1 pr.2) acc).length = acc.length := by
  intro pairs
  induction pairs with
  | nil => intro acc; rfl
  | cons pr rest ih =>
    intro acc
    simp only [List.foldl_cons]
    rw [ih (acc.set pr.1 pr.2), List.length_set]

/-- A replicated zero row reads zero everywhere. -/
theorem getD_replicate_zero : ∀ (n j : Nat), (List.replicate n (0 : Bal)).getD j 0 = 0 := by
  intro n
  induction n with
  | zero => intro j; simp
  | succ n' ih =>
    intro j
    cases j with
    | zero => simp [List.replicate]
    | succ j' => simp [List.replicate, ih j']

/-- A scattered row always has the target participant count. -/
theorem scatterRow_length (n : Nat) (im : List Nat) (row : List Bal) :
    (scatterRow n im row).length = n := by
  unfold scatterRow
  rw [foldl_set_length, List.length_replicate]

/-- Scattering through an injective, in-range index map of matching length
preserves the row sum. -/
theorem scatterRow_sum (n : Nat) (im : List Nat) (row : List Bal)
    (hlen : im.length = row.length) (hnd : im.Nodup)
    (hlt : ∀ i ∈ im, i < n) :
    (scatterRow n im row).sum = row.sum := by
  unfold scatterRow
  rw [foldl_set_sum]
  · rw [List.map_snd_zip im row (le_of_eq hlen.symm)]
    simp
  · rw [List.map_fst_zip im row (le_of_eq hlen)]
    exact hnd
  · intro pr hpr
    obtain ⟨h1, _⟩ := List.of_mem_zip hpr
    exact ⟨by simpa [List.length_replicate] using hlt pr.1 h1, getD_replicate_zero n pr.1⟩

/-- Removing the sub-allocation found by `lookupSubAlloc` subtracts its
contribution from the per-asset locked sum. -/
theorem removeSubAlloc_lockedSum : ∀ (locked : List SubAlloc) (id : Nat)
    (sa : SubAlloc) (a : Nat), lookupSubAlloc id locked = some sa →
    ((removeSubAllocById id locked).map (fun s => s.bals.getD a 0)).sum =
      (locked.map (fun s => s.bals.getD a 0)).sum - sa.bals.getD a 0 := by
  intro locked
  induction locked with
  | nil => intro id sa a h; simp [lookupSubAlloc] at h
  | cons s rest ih =>
    intro id sa a h
    by_cases hid : s.id = id
    · have hsa : sa = s := by
        simp [lookupSubAlloc, List.find?_cons, hid] at h
        exact h.symm
      subst hsa
      simp only [removeSubAllocById, if_pos hid, List.map_cons, List.sum_cons]
      ring
    · have h' : lookupSubAlloc id rest = some sa := by
        simpa [lookupSubAlloc, List.find?_cons, hid] using h
      simp only [removeSubAllocById, if_neg hid, List.map_cons, List.sum_cons]
      rw [ih id sa a h']
      ring

/-- Funding side of the conservation invariant: the funding update subtracts the
translated initial balances and locks exactly their sums. -/
theorem funding_conservation (parent virtual : ChState) (indexMap : List Nat) (a : Nat)
    (hassets : virtual.alloc.balances.length = parent.alloc.balances.length)
    (hrows : ∀ row ∈ parent.alloc.balances, row.length = numParts virtual) :
    conservedAt (proposeVirtualChannelFundingState parent virtual indexMap) a =
      conservedAt parent a := by
  have hTlen : parent.alloc.balances.length =
      (transformBalances virtual.alloc.balances (numParts virtual) indexMap).length := by
    unfold transformBalances
    rw [List.length_map]
    exact hassets.symm
  have hrowlen : (parent.alloc.balances.getD a []).length =
      ((transformBalances virtual.alloc.balances (numParts virtual) indexMap).getD a []).length := by
    by_cases ha : a < parent.alloc.balances.length
    · rw [List.getD_eq_getElem _ _ ha, List.getD_eq_getElem _ _ (hTlen ▸ ha)]
      rw [hrows _ (List.getElem_mem ha)]
      unfold transformBalances
      rw [List.getElem_map, scatterRow_length]
    · rw [List.getD_eq_default _ _ (Nat.le_of_not_lt ha),
        List.getD_eq_default _ _ (hTlen ▸ Nat.le_of_not_lt ha)]
  have h1 : rowSumAt (proposeVirtualChannelFundingState parent virtual indexMap) a =
      (parent.alloc.balances.getD a []).sum -
        ((transformBalances virtual.alloc.balances (numParts virtual) indexMap).getD a []).sum := by
    simp only [rowSumAt, proposeVirtualChannelFundingState, translateBalances, balancesSub]
    rw [getD_zipWith_rows _ _ _ a hTlen, zipWith_sub_sum _ _ hrowlen]
  have h2 : lockedSumAt (proposeVirtualChannelFundingState parent virtual indexMap) a =
      lockedSumAt parent a +
        ((transformBalances virtual.alloc.balances (numParts virtual) indexMap).getD a []).sum := by
    simp only [lockedSumAt, proposeVirtualChannelFundingState, translateBalances, balancesSum,
      List.map_append, List.sum_append, List.map_cons, List.map_nil, List.sum_cons,
      List.sum_nil, getD_map_sum]
    ring
  unfold conservedAt
  rw [h1, h2]
  simp only [rowSumAt]
  ring

/-- Settlement side of the conservation invariant: the settlement update adds
back the translated final balances and removes the sub-allocation, whose sums
the source asserts equal to the virtual channel's accumulated outcome. -/
theorem settlement_conservation (parent virtual : ChState) (sa : SubAlloc) (st : ChState)
    (a : Nat)
    (hfind : lookupSubAlloc virtual.id parent.alloc.locked = some sa)
    (hst : withdrawVirtualChannelState parent virtual = some st)
    (hvl : virtual.alloc.locked = [])
    (hassets : virtual.alloc.balances.length = parent.alloc.balances.length)
    (hprows : ∀ row ∈ parent.alloc.balances, row.length = numParts virtual)
    (hvrows : ∀ row ∈ virtual.alloc.balances, row.length = numParts virtual)
    (hmaplen : sa.indexMap.length = numParts virtual)
    (hnd : sa.indexMap.Nodup)
    (hmlt : ∀ i ∈ sa.indexMap, i < numParts virtual) :
    conservedAt st a = conservedAt parent a := by
  unfold withdrawVirtualChannelState at hst
  rw [hfind] at hst
  simp only [Option.some_bind] at hst
  by_cases hbals : sa.bals = allocationSum virtual.alloc
  case neg =>
    rw [if_neg hbals] at hst
    exact absurd hst (by simp)
  rw [if_pos hbals] at hst
  simp only [Option.some.injEq] at hst
  subst hst
  have hTlen : parent.alloc.balances.length =
      (transformBalances virtual.alloc.balances (numParts virtual) sa.indexMap).length := by
    unfold transformBalances
    rw [List.length_map]
    exact hassets.symm
  have hrowlen : (parent.alloc.balances.getD a []).length =
      ((transformBalances virtual.alloc.balances (numParts virtual) sa.indexMap).getD a []).length := by
    by_cases ha : a < parent.alloc.balances.length
    · rw [List.getD_eq_getElem _ _ ha, List.getD_eq_getElem _ _ (hTlen ▸ ha)]
      rw [hprows _ (List.getElem_mem ha)]
      unfold transformBalances
      rw [List.getElem_map, scatterRow_length]
    · rw [List.getD_eq_default _ _ (Nat.le_of_not_lt ha),
        List.getD_eq_default _ _ (hTlen ▸ Nat.le_of_not_lt ha)]
  have hkey : ((transformBalances virtual.alloc.balances (numParts virtual) sa.indexMap).getD a []).sum =
      sa.bals.getD a 0 := by
    rw [hbals]
    unfold allocationSum
    rw [hvl]
    simp only [List.foldr_nil, balancesSum, getD_map_sum]
    by_cases ha : a < virtual.alloc.balances.length
    · have haT : a < (transformBalances virtual.alloc.balances (numParts virtual) sa.indexMap).length := by
        unfold transformBalances
        rw [List.length_map]
        exact ha
      rw [List.getD_eq_getElem _ _ haT, List.getD_eq_getElem _ _ ha]
      unfold transformBalances
      rw [List.getElem_map]
      exact scatterRow_sum _ _ _
        (hmaplen.trans (hvrows _ (List.getElem_mem ha)).symm) hnd hmlt
    · have haT : (transformBalances virtual.alloc.balances (numParts virtual) sa.indexMap).length ≤ a := by
        unfold transformBalances
        rw [List.length_map]
        exact Nat.le_of_not_lt ha
      rw [List.getD_eq_default _ _ haT, List.getD_eq_default _ _ (Nat.le_of_not_lt ha)]
  have h1 : rowSumAt
      { parent with
        version := parent.version + 1
        alloc := { balances := balancesAdd parent.alloc.balances
                     (translateBalances virtual sa.indexMap)
                   locked := removeSubAllocById virtual.id parent.alloc.locked } } a =
      (parent.alloc.balances.getD a []).sum + sa.bals.getD a 0 := by
    simp only [rowSumAt, translateBalances, balancesAdd]
    rw [getD_zipWith_rows _ _ _ a hTlen, zipWith_add_sum _ _ hrowlen, hkey]
  have h2 : lockedSumAt
      { parent with
        version := parent.version + 1
        alloc := { balances := balancesAdd parent.alloc.balances
                     (translateBalances virtual sa.indexMap)
                   locked := removeSubAllocById virtual.id parent.alloc.locked } } a =
      lockedSumAt parent a - sa.bals.getD a 0 := by
    simp only [lockedSumAt]
    exact removeSubAlloc_lockedSum parent.alloc.locked virtual.id sa a hfind
  unfold conservedAt
  rw [h1, h2]
  simp only [rowSumAt]
  ring

/-- C2: for every virtual-channel funding update and every settlement update on
a parent channel, and for each asset, the sum of the parent's participant
balances plus its sub-allocation sums is unchanged: funding subtracts the
translated initial balances and locks exactly their sums; settlement adds the
translated final balances back and removes that sub-allocation. -/
theorem virtualChannel_sum_conservation :
    (∀ (parent virtual : ChState) (indexMap : List Nat) (a : Nat),
      virtual.alloc.balances.length = parent.alloc.balances.length →
      (∀ row ∈ parent.alloc.balances, row.length = numParts virtual) →
      conservedAt (proposeVirtualChannelFundingState parent virtual indexMap) a =
        conservedAt parent a) ∧
    (∀ (parent virtual : ChState) (sa : SubAlloc) (st : ChState) (a : Nat),
      lookupSubAlloc virtual.id parent.alloc.locked = some sa →
      withdrawVirtualChannelState parent virtual = some st →
      virtual.alloc.locked = [] →
      virtual.alloc.balances.length = parent.alloc.balances.length →
      (∀ row ∈ parent.alloc.balances, row.length = numParts virtual) →
      (∀ row ∈ virtual.alloc.balances, row.length = numParts virtual) →
      sa.indexMap.length = numParts virtual →
      sa.indexMap.Nodup →
      (∀ i ∈ sa.indexMap, i < numParts virtual) →
      conservedAt st a = conservedAt parent a) :=
  ⟨funding_conservation, settlement_conservation⟩

/-- C2 witness: spec scenario 3 — funding a `[5, 5]` virtual channel out of a
`[10, 10]` parent, and settling its `[2, 8]` final state back, both preserve
the per-asset total of 20. -/
theorem virtualChannel_sum_conservation_witness :
    conservedAt (proposeVirtualChannelFundingState parentEx virtualEx [0, 1]) 0 =
      conservedAt parentEx 0 ∧
    conservedAt settledEx 0 = conservedAt parentEx2 0 :=
  ⟨virtualChannel_sum_conservation.1 parentEx virtualEx [0, 1] 0 (by decide) (by decide),
   virtualChannel_sum_conservation.2 parentEx2 virtualEx2 ⟨9, [10], [0, 1]⟩ settledEx 0
     (by decide) (by decide) (by decide) (by decide) (by decide) (by decide)
     (by decide) (by decide) (by decide)⟩

/-- C4: `matchFundingProposal` matches two proposals (returning `true`, upon
which the intermediary accepts both) only if their initial virtual states are
equal and, between the two proposals, every virtual participant index below
`len(V.parts)` is mapped, by some proposal's index map, to the intermediary's
own index in that proposal's parent channel; proposals with differing initial
states are never matched. -/
theorem matchFundingProposal_state_equality_and_coverage :
    ∀ (reg : Nat → Option Nat) (persistOk : Bool)
      (p0 p1 : VirtualChannelFundingProposal),
      (matchFundingProposal reg persistOk p0 p1 = some true →
        p0.initialState = p1.initialState ∧
        (p0.indexMap.length = p0.chParams.parts.length →
          ∀ j, j < p0.chParams.parts.length →
            (∃ i0, reg p0.parentID = some i0 ∧ p0.indexMap.get? j = some i0) ∨
            (∃ i1, reg p1.parentID = some i1 ∧ p1.indexMap.get? j = some i1))) ∧
      (p0.initialState ≠ p1.initialState →
        matchFundingProposal reg persistOk p0 p1 = some false) := by
  intro reg persistOk p0 p1
  constructor
  · intro hmatch
    unfold matchFundingProposal at hmatch
    by_cases hne : p1.initialState = p0.initialState
    case neg =>
      rw [if_pos hne] at hmatch
      exact absurd hmatch (by simp)
    rw [if_neg (by simp [hne])] at hmatch
    refine ⟨hne.symm, ?_⟩
    intro hlen j hj
    cases h0 : reg p0.parentID with
    | none => rw [h0] at hmatch; exact absurd hmatch (by simp)
    | some i0 =>
      cases h1 : reg p1.parentID with
      | none => rw [h0, h1] at hmatch; exact absurd hmatch (by simp)
      | some i1 =>
        rw [h0, h1] at hmatch
        simp only at hmatch
        by_cases hlen2 : p1.indexMap.length > p0.indexMap.length
        · rw [if_pos hlen2] at hmatch
          exact absurd hmatch (by simp)
        rw [if_neg hlen2] at hmatch
        by_cases hall : (List.range p0.indexMap.length).all
            (fun j => p0.indexMap.get? j == some i0 || p1.indexMap.get? j == some i1)
        case neg =>
          rw [if_neg hall] at hmatch
          exact absurd hmatch (by simp)
        have hj' : j ∈ List.range p0.indexMap.length := by
          rw [List.mem_range, hlen]
          exact hj
        have hcov := List.all_eq_true.mp hall j hj'
        rcases Bool.or_eq_true_iff.mp hcov with hc | hc
        · exact Or.inl ⟨i0, rfl, by simpa using hc⟩
        · exact Or.inr ⟨i1, rfl, by simpa using hc⟩
  · intro hne
    unfold matchFundingProposal
    rw [if_pos (fun h => hne h.symm)]

/-- C4 witness: the two concrete matching proposals `vfpEx0` / `vfpEx1` are
matched, hence their initial states coincide. -/
theorem matchFundingProposal_state_equality_and_coverage_witness :
    vfpEx0.initialState = vfpEx1.initialState :=
  ((matchFundingProposal_state_equality_and_coverage regEx true vfpEx0 vfpEx1).1
    (by decide)).1

/-! ### Byte-level lemmas for the wire address claim -/

/-- `bytesCompare` returns 0 exactly on equal byte strings. -/
theorem bytesCompare_eq_zero_iff : ∀ xs ys : List Nat, bytesCompare xs ys = 0 ↔ xs = ys := by
  intro xs
  induction xs with
  | nil =>
    intro ys
    cases ys with
    | nil => simp [bytesCompare]
    | cons b bs => simp [bytesCompare]
  | cons a as ih =>
    intro ys
    cases ys with
    | nil => simp [bytesCompare]
    | cons b bs =>
      unfold bytesCompare
      by_cases h1 : a < b
      · rw [if_pos h1]
        constructor
        · intro habs; exact absurd habs (by decide)
        · intro habs
          have : a = b := (List.cons.injEq _ _ _ _ ▸ habs).1
          omega
      · rw [if_neg h1]
        by_cases h2 : b < a
        · rw [if_pos h2]
          constructor
          · intro habs; exact absurd habs (by decide)
          · intro habs
            have : a = b := (List.cons.injEq _ _ _ _ ▸ habs).1
            omega
        · rw [if_neg h2]
          have hab : a = b := by omega
          subst hab
          rw [ih bs]
          simp

/-- `bytesToNatLE` inverts `natBytesLE` when the fuel covers the value. -/
theorem bytesToNat_natBytesLE : ∀ (fuel n : Nat), n ≤ fuel →
    bytesToNatLE (natBytesLE fuel n) = n := by
  intro fuel
  induction fuel with
  | zero =>
    intro n h
    have : n = 0 := by omega
    subst this
    rfl
  | succ f ih =>
    intro n h
    unfold natBytesLE
    by_cases h0 : n = 0
    · rw [if_pos h0, h0]; rfl
    · rw [if_neg h0]
      unfold bytesToNatLE
      rw [ih (n / 256) (by
        have : n / 256 < n := Nat.div_lt_self (by omega) (by omega)
        omega)]
      omega

/-- `natToBytesBE` is injective: big-endian byte representations determine the
modulus. -/
theorem natToBytesBE_injective (m n : Nat) (h : natToBytesBE m = natToBytesBE n) :
    m = n := by
  have hm := bytesToNat_natBytesLE m m le_rfl
  have hn := bytesToNat_natBytesLE n n le_rfl
  have h' : natBytesLE m m = natBytesLE n n := by
    have := congrArg List.reverse h
    simpa [natToBytesBE] using this
  rw [← hm, ← hn, h']

/-- `int32BE` is injective on exponents within `int32` range. -/
theorem int32BE_inj_range (e1 e2 : Int)
    (h1 : -2147483648 ≤ e1 ∧ e1 < 2147483648)
    (h2 : -2147483648 ≤ e2 ∧ e2 < 2147483648)
    (h : int32BE e1 = int32BE e2) : e1 = e2 := by
  unfold int32BE at h
  simp only [List.cons.injEq, and_true] at h
  have hm1 : (0 : Int) ≤ e1 % 4294967296 := Int.emod_nonneg e1 (by norm_num)
  have hm2 : (0 : Int) ≤ e2 % 4294967296 := Int.emod_nonneg e2 (by norm_num)
  have hb1 : e1 % 4294967296 < 4294967296 := Int.emod_lt_of_pos e1 (by norm_num)
  have hb2 : e2 % 4294967296 < 4294967296 := Int.emod_lt_of_pos e2 (by norm_num)
  have hv : (e1 % 4294967296).toNat = (e2 % 4294967296).toNat := by
    set v1 := (e1 % 4294967296).toNat with hv1
    set v2 := (e2 % 4294967296).toNat with hv2
    have hlt1 : v1 < 4294967296 := by omega
    have hlt2 : v2 < 4294967296 := by omega
    obtain ⟨ha, hb, hc, hd⟩ := h
    omega
  have hmod : e1 % 4294967296 = e2 % 4294967296 := by omega
  omega

/-- `encodePublicKey` is injective on keys with `int32`-representable exponents. -/
theorem encodePublicKey_inj_range (k1 k2 : RSAPublicKey)
    (h1 : -2147483648 ≤ k1.e ∧ k1.e < 2147483648)
    (h2 : -2147483648 ≤ k2.e ∧ k2.e < 2147483648)
    (h : encodePublicKey k1 = encodePublicKey k2) : k1 = k2 := by
  have h' : u16BE (natToBytesBE k1.n).length ++ natToBytesBE k1.n ++ int32BE k1.e =
      u16BE (natToBytesBE k2.n).length ++ natToBytesBE k2.n ++ int32BE k2.e := h
  have hlenTot := congrArg List.length h'
  simp only [List.length_append, u16BE, int32BE, List.length_cons, List.length_nil] at hlenTot
  have hlen : (natToBytesBE k1.n).length = (natToBytesBE k2.n).length := by omega
  have hsplitA := List.append_inj h' (by simp [u16BE, hlen])
  have hsplitB := List.append_inj hsplitA.1 (by simp [u16BE])
  have hn : k1.n = k2.n := natToBytesBE_injective _ _ hsplitB.2
  have he : k1.e = k2.e := int32BE_inj_range _ _ h1 h2 hsplitA.2
  cases k1
  cases k2
  simp only at hn he
  rw [hn, he]

/-- C10 counterexample: two addresses with equal names whose public keys differ
only in the exponent — by exactly `2^32`, which `encodePublicKey` truncates —
compare as 0 under `Cmp` while `Equal` is false, refuting the claimed
equivalence. -/
theorem cmp_zero_but_not_equal_exponent_collision :
    Address.Cmp addrEx0 addrEx1 = 0 ∧ Address.Equal addrEx0 addrEx1 = false := by
  constructor
  · decide
  · decide

/-- C10 (amended): for simple-backend wire addresses whose public-key exponents
(when present) are representable as `int32`, `Cmp(a, b) = 0` holds iff
`Equal(a, b)` holds. -/
theorem cmp_zero_iff_equal (a b : Address)
    (ha : ∀ k, a.publicKey = some k → -2147483648 ≤ k.e ∧ k.e < 2147483648)
    (hb : ∀ k, b.publicKey = some k → -2147483648 ≤ k.e ∧ k.e < 2147483648) :
    Address.Cmp a b = 0 ↔ Address.Equal a b = true := by
  unfold Address.Cmp
  by_cases hn : bytesCompare a.name b.name = 0
  · have hname : a.name = b.name := (bytesCompare_eq_zero_iff _ _).mp hn
    rw [if_neg (by simp [hn])]
    rw [bytesCompare_eq_zero_iff]
    unfold Address.MarshalBinary
    rw [hname]
    constructor
    · intro hm
      have hkeys : (match a.publicKey with
          | none => ([] : List Nat)
          | some k => encodePublicKey k) =
          (match b.publicKey with
          | none => ([] : List Nat)
          | some k => encodePublicKey k) :=
        List.append_cancel_left hm
      cases hA : a.publicKey with
      | none =>
        cases hB : b.publicKey with
        | none => simp [Address.Equal, hA, hB, hname]
        | some k2 =>
          rw [hA, hB] at hkeys
          have := congrArg List.length hkeys
          simp [encodePublicKey, u16BE, int32BE] at this
      | some k1 =>
        cases hB : b.publicKey with
        | none =>
          rw [hA, hB] at hkeys
          have := congrArg List.length hkeys
          simp [encodePublicKey, u16BE, int32BE] at this
        | some k2 =>
          rw [hA, hB] at hkeys
          have hk := encodePublicKey_inj_range k1 k2 (ha k1 hA) (hb k2 hB) hkeys
          simp [Address.Equal, hA, hB, hname, hk]
    · intro he
      cases hA : a.publicKey with
      | none =>
        have h' : a.name = b.name ∧ b.publicKey = none := by
          simpa [Address.Equal, hA] using he
        rw [h'.2]
      | some k1 =>
        cases hB : b.publicKey with
        | none => simp [Address.Equal, hA, hB] at he
        | some k2 =>
          have h' : a.name = b.name ∧ k1.n = k2.n ∧ k1.e = k2.e := by
            simpa [Address.Equal, hA, hB] using he
          have hk : k1 = k2 := by
            cases k1
            cases k2
            simp only at h'
            rw [h'.2.1, h'.2.2]
          rw [hk]
  · rw [if_pos (by simpa using hn)]
    have hname : a.name ≠ b.name := fun h => hn ((bytesCompare_eq_zero_iff _ _).mpr h)
    constructor
    · intro h; exact absurd h hn
    · intro he
      exfalso
      cases hA : a.publicKey with
      | none =>
        have h' : a.name = b.name ∧ b.publicKey = none := by
          simpa [Address.Equal, hA] using he
        exact hname h'.1
      | some k1 =>
        cases hB : b.publicKey with
        | none => simp [Address.Equal, hA, hB] at he
        | some k2 =>
          have h' : a.name = b.name ∧ k1.n = k2.n ∧ k1.e = k2.e := by
            simpa [Address.Equal, hA, hB] using he
          exact hname h'.1

/-- C10 amended-claim witness: the exponent 3 is `int32`-representable, so the
equivalence applies to `addrEx0` compared with itself. -/
theorem cmp_zero_iff_equal_witness :
    Address.Cmp addrEx0 addrEx0 = 0 ↔ Address.Equal addrEx0 addrEx0 = true :=
  cmp_zero_iff_equal addrEx0 addrEx0
    (by
      intro k hk
      simp only [addrEx0, Option.some.injEq] at hk
      subst hk
      decide)
    (by
      intro k hk
      simp only [addrEx0, Option.some.injEq] at hk
      subst hk
      decide)
